import Mathlib

/-!
Verification of the pin / retention-tracking engine (`pin/pin.go`) of a
content-addressed block store, against its natural-language specification.

The development shallowly embeds the Go source: the `pinner` struct becomes
the `Pinner` structure, its methods become pure state-passing functions, the
DAG service and durable pointer record become explicit store values, and Go
errors become the `PinErr` sum type (one constructor per distinct
`fmt.Errorf` format / sentinel in the source).  The PinSet codec
(`storeSet` / `loadSet`) is not part of the provided sources (only its tests
and callers are) and is modelled from the specification, as marked below.
-/

/--
Content-derived identifier (`key.Key` in the source).  Identifiers are
opaque, immutable and content-derived: a DAG node is addressed by its own
identifier, so an encoding node is identified with (the content of) the node
it names.  `uid` covers ordinary user-content identifiers, the remaining
constructors are the content addresses of the retention-record encoding
nodes: codec leaves (lists of identifier/multiplicity pairs), codec branch
nodes (arrays of links) and the two-link pin root produced by `Flush`.
-/
inductive Key where
  | uid : Nat → Key
  | leaf : List (Key × Nat) → Key
  | branch : List Key → Key
  | root : Key → Key → Key

mutual

/-- Boolean equality on identifiers (content equality). -/
def Key.beq : Key → Key → Bool
  | .uid m, .uid n => m == n
  | .leaf xs, .leaf ys => Key.beqPairs xs ys
  | .branch xs, .branch ys => Key.beqList xs ys
  | .root a b, .root c d => Key.beq a c && Key.beq b d
  | _, _ => false

/-- Boolean equality on link lists. -/
def Key.beqList : List Key → List Key → Bool
  | [], [] => true
  | x :: xs, y :: ys => Key.beq x y && Key.beqList xs ys
  | _, _ => false

/-- Boolean equality on identifier/multiplicity pair lists. -/
def Key.beqPairs : List (Key × Nat) → List (Key × Nat) → Bool
  | [], [] => true
  | (k₁, n₁) :: xs, (k₂, n₂) :: ys => Key.beq k₁ k₂ && n₁ == n₂ && Key.beqPairs xs ys
  | _, _ => false

end

mutual

theorem Key.beq_iff : ∀ a b : Key, Key.beq a b = true ↔ a = b
  | .uid m, .uid n => by simp only [Key.beq, beq_iff_eq, Key.uid.injEq]
  | .uid _, .leaf _ => by simp [Key.beq]
  | .uid _, .branch _ => by simp [Key.beq]
  | .uid _, .root _ _ => by simp [Key.beq]
  | .leaf _, .uid _ => by simp [Key.beq]
  | .leaf xs, .leaf ys => by
      simp only [Key.beq, Key.beqPairs_iff xs ys, Key.leaf.injEq]
  | .leaf _, .branch _ => by simp [Key.beq]
  | .leaf _, .root _ _ => by simp [Key.beq]
  | .branch _, .uid _ => by simp [Key.beq]
  | .branch _, .leaf _ => by simp [Key.beq]
  | .branch xs, .branch ys => by
      simp only [Key.beq, Key.beqList_iff xs ys, Key.branch.injEq]
  | .branch _, .root _ _ => by simp [Key.beq]
  | .root _ _, .uid _ => by simp [Key.beq]
  | .root _ _, .leaf _ => by simp [Key.beq]
  | .root _ _, .branch _ => by simp [Key.beq]
  | .root a b, .root c d => by
      simp only [Key.beq, Bool.and_eq_true, Key.beq_iff a c, Key.beq_iff b d,
        Key.root.injEq]

theorem Key.beqList_iff : ∀ xs ys : List Key, Key.beqList xs ys = true ↔ xs = ys
  | [], [] => by simp [Key.beqList]
  | [], _ :: _ => by simp [Key.beqList]
  | _ :: _, [] => by simp [Key.beqList]
  | x :: xs, y :: ys => by
      simp only [Key.beqList, Bool.and_eq_true, Key.beq_iff x y,
        Key.beqList_iff xs ys, List.cons.injEq]

theorem Key.beqPairs_iff :
    ∀ xs ys : List (Key × Nat), Key.beqPairs xs ys = true ↔ xs = ys
  | [], [] => by simp [Key.beqPairs]
  | [], _ :: _ => by simp [Key.beqPairs]
  | _ :: _, [] => by simp [Key.beqPairs]
  | (k₁, n₁) :: xs, (k₂, n₂) :: ys => by
      simp only [Key.beqPairs, Bool.and_eq_true, Key.beq_iff k₁ k₂,
        Key.beqPairs_iff xs ys, List.cons.injEq, Prod.mk.injEq, beq_iff_eq,
        and_assoc]

end

instance : DecidableEq Key := fun a b =>
  decidable_of_iff (Key.beq a b = true) (Key.beq_iff a b)

deriving instance DecidableEq for Except

/--
Errors produced by the pinner, one constructor per distinct error format of
the Go source: the `ErrNotPinned` sentinel, the merkledag not-found error,
`"%s already pinned recursively"`, `"%s is pinned recursively"`,
`"%s is pinned indirectly under %s"`, the invalid-classification error of
`isPinnedWithType`, the load errors of `LoadPinner`, a missing-link error,
a propagated fetch error, and a depth-limit artifact of the bounded
recursion used by this model of the reachability walker.
-/
inductive PinErr where
  | notPinned : PinErr
  | notFound : PinErr
  | alreadyPinnedRecursively : Key → PinErr
  | pinnedRecursively : Key → PinErr
  | pinnedIndirectly : Key → String → PinErr
  | invalidType : String → PinErr
  | cannotLoadPinState : PinErr
  | cannotFindPinningRoot : PinErr → PinErr
  | cannotLoadRecursivePins : PinErr → PinErr
  | cannotLoadDirectPins : PinErr → PinErr
  | noSuchLink : String → PinErr
  | fetchFailed : String → PinErr
  | depthLimit : PinErr
deriving DecidableEq

/-- Base58 rendering of an identifier (`key.Key.B58String` in the source),
modelled as an injective-on-user-ids tagging of the key. -/
def b58String : Key → String
  | .uid n => "Qmuid" ++ Nat.repr n
  | .leaf _ => "Qmleaf"
  | .branch _ => "Qmbranch"
  | .root _ _ => "Qmroot"

/--
In-memory pinner state (the `pinner` struct): the recursive pin set, the
direct pin set, the internal bookkeeping set and the cached root node of the
most recent flush/load.  The Go sets are unordered collections of keys;
they are modelled as duplicate-free lists built by `addBlock`/`removeBlock`.
-/
structure Pinner where
  recursePin : List Key
  directPin : List Key
  internalPin : List Key
  rootNode : Option Key
deriving DecidableEq

/-- Embedding of `NewPinner`: a fresh pinner with empty sets and no cached root. -/
def newPinner : Pinner :=
  { recursePin := [], directPin := [], internalPin := [], rootNode := none }

/-- Embedding of `set.BlockSet.AddBlock`: set insertion. -/
def addBlock (l : List Key) (k : Key) : List Key :=
  if k ∈ l then l else l ++ [k]

/-- Embedding of `set.BlockSet.RemoveBlock`: set removal. -/
def removeBlock (l : List Key) (k : Key) : List Key :=
  l.filter (fun x => x ≠ k)

/--
Environment of external collaborators: the link structure of user-content
nodes (content-determined, hence a fixed function), and the outcome of
`mdag.FetchGraph` on a given root (`none` is success, `some e` is the fetch
error propagated verbatim by `Pin`).
-/
structure Env where
  userLinks : Nat → List Key
  fetchRes : Key → Option PinErr

/-- Links of the DAG node named by a key: user nodes link per the
environment, codec leaves carry data (no links), branch nodes link to their
children, a pin root links to its direct and recursive set nodes. -/
def linksOf (e : Env) : Key → List Key
  | .uid n => e.userLinks n
  | .leaf _ => []
  | .branch ks => ks
  | .root d r => [d, r]

/-- The local DAG store (`mdag.DAGService` over the blockstore): the set of
locally present nodes, each named by its content key. -/
structure DServ where
  present : List Key
deriving DecidableEq

/-- Embedding of `DAGService.Get`: returns the node (its content key) when locally
present, otherwise fails. -/
def DServ.get (s : DServ) (k : Key) : Option Key :=
  if k ∈ s.present then some k else none

/-- Embedding of `DAGService.Add`: store a node. -/
def DServ.add (s : DServ) (k : Key) : DServ :=
  { present := k :: s.present }

/-- Store a list of nodes (the writes performed by the codec). -/
def DServ.addAll (s : DServ) (ks : List Key) : DServ :=
  { present := ks ++ s.present }

/-- Embedding of `DAGService.Remove`: delete a node from the store. -/
def DServ.remove (s : DServ) (k : Key) : DServ :=
  { present := s.present.filter (fun x => x ≠ k) }

/--
Embedding of `pinner.Pin` (pin.go lines 92-128).  With `recurse = true`:
an already-recursive target is a successful no-op; otherwise any direct
entry for the target is removed first, then the entire graph is fetched
(`mdag.FetchGraph`), and only on fetch success is the target added to the
recursive set.  With `recurse = false`: the target itself is fetched via
`dserv.Get` first; on success, an already-recursively-pinned target is an
error, otherwise the target is added to the direct set.
-/
def pin (e : Env) (s : DServ) (st : Pinner) (k : Key) (recurse : Bool) :
    Pinner × Option PinErr :=
  if recurse then
    if k ∈ st.recursePin then (st, none)
    else
      let st₁ := if k ∈ st.directPin then
        { st with directPin := removeBlock st.directPin k } else st
      match e.fetchRes k with
      | some m => (st₁, some m)
      | none => ({ st₁ with recursePin := addBlock st₁.recursePin k }, none)
  else
    match s.get k with
    | none => (st, some PinErr.notFound)
    | some _ =>
      if k ∈ st.recursePin then (st, some (PinErr.alreadyPinnedRecursively k))
      else ({ st with directPin := addBlock st.directPin k }, none)

/-- The `PinMode` type is an integer enumeration in the source (`Recursive = 0`,
`Direct = 1`, `NotPinned = 2`); values outside the named constants are
representable, so the mode is modelled as an integer. -/
abbrev PinMode := Int

/-- The `Recursive` pin mode. -/
def PinMode.recursiveMode : PinMode := 0

/-- The `Direct` pin mode. -/
def PinMode.directMode : PinMode := 1

/-- The `NotPinned` pin mode. -/
def PinMode.notPinnedMode : PinMode := 2

/-- Result of a low-level mutation: either a normal return with the new
state, or a fatal abort (`panic` in the source). -/
inductive MResult where
  | panics : MResult
  | returns : Pinner → MResult
deriving DecidableEq

/-- Embedding of `pinner.PinWithMode` (pin.go lines 383-392): a switch with
cases for `Recursive` and `Direct` and no default case, so any other mode
falls through and returns with the state unchanged. -/
def pinWithMode (st : Pinner) (k : Key) (mode : PinMode) : MResult :=
  if mode = PinMode.recursiveMode then
    .returns { st with recursePin := addBlock st.recursePin k }
  else if mode = PinMode.directMode then
    .returns { st with directPin := addBlock st.directPin k }
  else .returns st

/-- Embedding of `pinner.RemovePinWithMode` (pin.go lines 226-238): a switch
with cases for `Direct` and `Recursive` and a default case that panics with
"unrecognized pin type". -/
def removePinWithMode (st : Pinner) (k : Key) (mode : PinMode) : MResult :=
  if mode = PinMode.directMode then
    .returns { st with directPin := removeBlock st.directPin k }
  else if mode = PinMode.recursiveMode then
    .returns { st with recursePin := removeBlock st.recursePin k }
  else .panics

/-- One step of the depth-first child search: scan a link list, returning
true on an exact match, otherwise fetch the child and recurse via `rec`
(the search at the next depth), propagating fetch errors. -/
def childScan (s : DServ) (rec : Key → Except PinErr Bool) (child : Key) :
    List Key → Except PinErr Bool
  | [] => .ok false
  | l :: ls =>
    if l = child then .ok true
    else
      match s.get l with
      | none => .error PinErr.notFound
      | some nd =>
        match rec nd with
        | .error m => .error m
        | .ok true => .ok true
        | .ok false => childScan s rec child ls

/-- Embedding of `hasChild` (pin.go lines 394-416): depth-first search for
`child` among the links reachable from `root`, fetching every visited node.
The source relies on content-addressing for termination; the model bounds
the recursion depth by explicit fuel and reports `depthLimit` when
exhausted. -/
def hasChild (e : Env) (s : DServ) : Nat → Key → Key → Except PinErr Bool
  | 0, _, _ => .error PinErr.depthLimit
  | fuel + 1, root, child =>
    childScan s (fun nd => hasChild e s fuel nd child) child (linksOf e root)

/-- The indirect-classification walk of `isPinnedWithType` (pin.go lines
209-222): for each recursive root in order, fetch it and run `hasChild`;
the first root that reaches the target yields its base58 string as the
explanation. -/
def indirectWalk (e : Env) (s : DServ) (fuel : Nat) (k : Key) :
    List Key → String × Bool × Option PinErr
  | [] => ("", false, none)
  | rk :: rks =>
    match s.get rk with
    | none => ("", false, some PinErr.notFound)
    | some rnd =>
      match hasChild e s fuel rnd k with
      | .error m => ("", false, some m)
      | .ok true => (b58String rk, true, none)
      | .ok false => indirectWalk e s fuel k rks

/--
Embedding of `pinner.isPinnedWithType` (pin.go lines 180-224), returning
the Go triple (explanation, pinned, error).  The mode string is validated
first; then recursive, direct and internal membership are checked in that
order (each short-circuiting for its specific mode), and the remaining case
is the indirect walk over all recursive roots.
-/
def isPinnedWithType (e : Env) (s : DServ) (fuel : Nat) (st : Pinner)
    (k : Key) (t : String) : String × Bool × Option PinErr :=
  if ¬ (t = "all" ∨ t = "direct" ∨ t = "indirect" ∨ t = "recursive" ∨
      t = "internal") then
    ("", false, some (PinErr.invalidType t))
  else if (t = "recursive" ∨ t = "all") ∧ k ∈ st.recursePin then
    ("recursive", true, none)
  else if t = "recursive" then ("", false, none)
  else if (t = "direct" ∨ t = "all") ∧ k ∈ st.directPin then
    ("direct", true, none)
  else if t = "direct" then ("", false, none)
  else if (t = "internal" ∨ t = "all") ∧ k ∈ st.internalPin then
    ("internal", true, none)
  else if t = "internal" then ("", false, none)
  else indirectWalk e s fuel k st.recursePin

/--
Embedding of `pinner.Unpin` (pin.go lines 133-157): classify via
`isPinnedWithType "all"`, propagate its error, return `ErrNotPinned` when
unclassified; a recursive pin is removed only when the caller passed
`recursive = true`; a direct pin is removed unconditionally; any other
explanation (an indirect root, or "internal") is a pinned-indirectly error.
-/
def unpin (e : Env) (s : DServ) (fuel : Nat) (st : Pinner) (k : Key)
    (recursive : Bool) : Pinner × Option PinErr :=
  match isPinnedWithType e s fuel st k "all" with
  | (reason, pinned, err) =>
    match err with
    | some m => (st, some m)
    | none =>
      if ¬ pinned then (st, some PinErr.notPinned)
      else if reason = "recursive" then
        if recursive then
          ({ st with recursePin := removeBlock st.recursePin k }, none)
        else (st, some (PinErr.pinnedRecursively k))
      else if reason = "direct" then
        ({ st with directPin := removeBlock st.directPin k }, none)
      else (st, some (PinErr.pinnedIndirectly k reason))

/-- Fixed bucket count of the sharded codec (256-way fan-out per the
specification). -/
def fanout : Nat := 256

/-- Threshold above which a bucket is sharded rather than stored in a
single leaf (8192 items, per the source codec this models). -/
def maxItems : Nat := 8192

/--
Modelled from the spec: the PinSet codec encoder `storeItems`/`storeSet` of
the repository's `pin/set.go`, which is absent from the provided sources
(only its tests in `pin/set_test.go` and its callers in `pin/pin.go` are
present).  Sharding per the specification: a mapping small enough is stored
in a single leaf listing (identifier, multiplicity) pairs; otherwise the
entries are distributed over a fixed 256-way fan-out keyed by a uniform
per-depth hash of the identifier, recursing per bucket.  Recursion depth is
bounded by explicit fuel (the spec notes tree depth is bounded, so bounded
recursion is faithful); an exhausted budget stores a flat leaf.  Returns
the encoded node together with every node created (the writes performed on
the DAG store, reported to the internal-identifier collector).
-/
def storeMFuel (h : Nat → Key → Nat) :
    Nat → Nat → List (Key × Nat) → Key × List Key
  | _, 0, entries => (Key.leaf entries, [Key.leaf entries])
  | depth, fuel + 1, entries =>
    if entries.length ≤ maxItems then (Key.leaf entries, [Key.leaf entries])
    else
      let cs := (List.range fanout).map
        (fun b => storeMFuel h (depth + 1) fuel
          (entries.filter (fun p => h depth p.1 % fanout = b)))
      (Key.branch (cs.map Prod.fst),
        Key.branch (cs.map Prod.fst) :: (cs.map Prod.snd).flatten)

/--
Modelled from the spec: `storeMultiset` of the absent `pin/set.go`.
Zero-multiplicity entries are never encoded (silently omitted, per the
specification), then the positive entries are sharded by `storeMFuel` with
a fuel budget no smaller than the entry count.
-/
def storeMultiset (h : Nat → Key → Nat) (entries : List (Key × Nat)) :
    Key × List Key :=
  let es := entries.filter (fun p => p.2 ≠ 0)
  storeMFuel h 0 es.length es

/--
Modelled from the spec: `storeSet` of the absent `pin/set.go`, the
plain-set variant used by `Flush`: every key is stored with multiplicity
one.
-/
def storeSet (h : Nat → Key → Nat) (ks : List Key) : Key × List Key :=
  storeMultiset h (ks.map (fun k => (k, 1)))

/-- Decode the children of a branch node: fetch each child from the store
(failing with the propagated not-found error when absent) and concatenate
the decoded sub-mappings via `rec`, the decoder at the next depth. -/
def loadChildren (s : DServ) (rec : Key → Except PinErr (List (Key × Nat))) :
    List Key → Except PinErr (List (Key × Nat))
  | [] => .ok []
  | k :: ks =>
    if k ∈ s.present then
      match rec k with
      | .error m => .error m
      | .ok l =>
        match loadChildren s rec ks with
        | .error m => .error m
        | .ok ls => .ok (l ++ ls)
    else .error PinErr.notFound

/--
Modelled from the spec: the PinSet codec decoder `loadMultiset` of the
absent `pin/set.go`.  A leaf yields its (identifier, multiplicity) pairs;
a branch fetches every child from the DAG store and concatenates their
decodings; any other node is a structural parse error.  Recursion depth is
bounded by explicit fuel, mirroring the encoder's bound.
-/
def loadMFuel (s : DServ) : Nat → Key → Except PinErr (List (Key × Nat))
  | _, .leaf items => .ok items
  | 0, .branch _ => .error PinErr.depthLimit
  | fuel + 1, .branch ks => loadChildren s (fun k => loadMFuel s fuel k) ks
  | _, .uid _ => .error PinErr.notFound
  | _, .root _ _ => .error PinErr.notFound

/-- Pure tree decoding (no store): the mapping a codec tree denotes.  Used
to factor the round-trip proof. -/
def pureDecode : Nat → Key → List (Key × Nat)
  | _, .leaf items => items
  | 0, _ => []
  | fuel + 1, .branch ks => (ks.map (fun k => pureDecode fuel k)).flatten
  | _, .uid _ => []
  | _, .root _ _ => []

/-- Nodes visited by a bounded traversal of a codec tree (the identifiers
reported to the internal collector during decoding). -/
def nodesUnder : Nat → Key → List Key
  | _, .leaf items => [Key.leaf items]
  | 0, k => [k]
  | fuel + 1, .branch ks => Key.branch ks :: (ks.map (fun k => nodesUnder fuel k)).flatten
  | _, .uid n => [Key.uid n]
  | _, .root a b => [Key.root a b]

/-- Embedding of `mdag.Node.GetNodeLink`: look up a named link of the pin root node
(`"direct"` and `"recursive"` are its two links). -/
def getLink (root : Key) (name : String) : Except PinErr Key :=
  match root with
  | .root d r =>
    if name = "direct" then .ok d
    else if name = "recursive" then .ok r
    else .error (PinErr.noSuchLink name)
  | _ => .error (PinErr.noSuchLink name)

/-- Modelled from the spec: `loadSet` of the absent `pin/set.go` — resolve
the named link of the pin root, fetch the linked codec node and decode it,
returning the keys of the decoded mapping together with the visited node
identifiers (reported to the internal collector). -/
def loadSetE (fuel : Nat) (s : DServ) (root : Key) (name : String) :
    Except PinErr (List Key × List Key) :=
  match getLink root name with
  | .error m => .error m
  | .ok n =>
    if n ∈ s.present then
      match loadMFuel s fuel n with
      | .error m => .error m
      | .ok items => .ok (items.map Prod.fst, nodesUnder fuel n)
    else .error PinErr.notFound

/-- The empty DAG node added by `Flush` ("its referenced by the pin sets
but never created"). -/
def emptyMNode : Key := Key.branch []

/-- One step of the old-root cleanup in `Flush`: fetch the link target and
remove it from the store when the fetch succeeds. -/
def cleanupStep (acc : DServ) (c : Key) : DServ :=
  if c ∈ acc.present then acc.remove c else acc

/-- Result of `Flush`: the new pinner state, the DAG store after the
encoding writes and the old-root cleanup, and the durable pointer record. -/
structure FlushResult where
  pinner : Pinner
  dserv : DServ
  dstore : Option Key
deriving DecidableEq

/--
Embedding of `pinner.Flush` (pin.go lines 308-369): encode the direct and
recursive sets through the codec, assemble a fresh two-link root, write the
created nodes, the canonical empty node and the root to the DAG store,
record every created node plus the root key as internal, persist the root
key in the durable pointer record, and finally remove the previous root's
fetchable link children and the previous root itself from the store.
-/
def flush (h : Nat → Key → Nat) (e : Env) (s : DServ) (st : Pinner) :
    FlushResult :=
  let pd := storeSet h st.directPin
  let pr := storeSet h st.recursePin
  let root := Key.root pd.1 pr.1
  let internal := pd.2 ++ pr.2 ++ [root]
  let s₁ := (((s.addAll pd.2).addAll pr.2).add emptyMNode).add root
  let s₂ := match st.rootNode with
    | none => s₁
    | some old => ((linksOf e old).foldl cleanupStep s₁).remove old
  { pinner := { st with rootNode := some root, internalPin := internal },
    dserv := s₂,
    dstore := some root }

/--
Embedding of `LoadPinner` (pin.go lines 241-295): read the durable root
pointer (failing with a load-state error when absent), fetch the root node,
decode the recursive set and then the direct set through the codec
(wrapping their failures), and record the root key plus every visited node
as internal.
-/
def loadPinner (fuel : Nat) (s : DServ) (dst : Option Key) :
    Except PinErr Pinner :=
  match dst with
  | none => .error PinErr.cannotLoadPinState
  | some rootKey =>
    match s.get rootKey with
    | none => .error (PinErr.cannotFindPinningRoot PinErr.notFound)
    | some root =>
      match loadSetE fuel s root "recursive" with
      | .error m => .error (PinErr.cannotLoadRecursivePins m)
      | .ok rres =>
        match loadSetE fuel s root "direct" with
        | .error m => .error (PinErr.cannotLoadDirectPins m)
        | .ok dres =>
          .ok { recursePin := rres.1, directPin := dres.1,
                internalPin := rootKey :: (rres.2 ++ dres.2),
                rootNode := some root }

/-- Embedding of `InternalPins` (pin.go lines 371-379): snapshot of the internal set. -/
def internalPins (st : Pinner) : List Key := st.internalPin

/-- Embedding of `DirectKeys` (pin.go lines 298-300): snapshot of the direct set. -/
def directKeys (st : Pinner) : List Key := st.directPin

/-- Embedding of `RecursiveKeys` (pin.go lines 303-305): snapshot of the recursive
set. -/
def recursiveKeys (st : Pinner) : List Key := st.recursePin

/--
States reachable from a starting pinner by any sequence of `Pin` and
`Unpin` calls, under arbitrary collaborator environments, stores, targets
and flags at every step (the call's error outcome is irrelevant to
reachability: the state after the call is reached either way).
-/
inductive Reaches : Pinner → Pinner → Prop where
  | refl (st : Pinner) : Reaches st st
  | pinStep {init st : Pinner} (e : Env) (s : DServ) (k : Key) (r : Bool)
      (hr : Reaches init st) : Reaches init (pin e s st k r).1
  | unpinStep {init st : Pinner} (e : Env) (s : DServ) (fuel : Nat) (k : Key)
      (r : Bool) (hr : Reaches init st) :
      Reaches init (unpin e s fuel st k r).1

/-- The nodes removed by the old-root cleanup of `Flush`: the previous root
and its link children (empty when no previous root is cached). -/
def oldNodes (e : Env) (st : Pinner) : List Key :=
  match st.rootNode with
  | none => []
  | some old => old :: linksOf e old

/-- Example collaborator environment: no user links, every fetch succeeds. -/
def exEnv : Env := { userLinks := fun _ => [], fetchRes := fun _ => none }

/-- Example environment in which every graph fetch fails with a propagated
fetch error. -/
def exEnvFail : Env :=
  { userLinks := fun _ => [],
    fetchRes := fun _ => some (PinErr.fetchFailed "offline") }

/-- Example environment with one user link: node 0 links to node 5. -/
def exEnvLink : Env :=
  { userLinks := fun n => if n = 0 then [Key.uid 5] else [],
    fetchRes := fun _ => none }

/-- Example store for the linked-node environment. -/
def exStoreLink : DServ := { present := [Key.uid 0, Key.uid 5] }

/-- Example codec hash. -/
def exHash : Nat → Key → Nat := fun _ _ => 0

/-- Pinner with one recursively pinned identifier. -/
def exPinnerRec : Pinner :=
  { recursePin := [Key.uid 0], directPin := [], internalPin := [],
    rootNode := none }

/-- Pinner with one directly pinned identifier. -/
def exPinnerDir : Pinner :=
  { recursePin := [], directPin := [Key.uid 1], internalPin := [],
    rootNode := none }

/-- Pinner with a direct pin (identifier 1) and a recursive pin
(identifier 2): the specification's Flush scenario. -/
def exPinnerAB : Pinner :=
  { recursePin := [Key.uid 2], directPin := [Key.uid 1], internalPin := [],
    rootNode := none }

/-- The result of flushing a fresh pinner into an empty store: the cached
root's encoding nodes coincide with the nodes a second flush creates. -/
def exFlushed : FlushResult := flush exHash exEnv (DServ.mk []) newPinner

/-- The pinner produced by loading the store left by `exFlushed`. -/
def exLoaded : Pinner :=
  match loadPinner 2 exFlushed.dserv exFlushed.dstore with
  | .ok q => q
  | .error _ => newPinner

theorem mem_addBlock {l : List Key} {k a : Key} :
    a ∈ addBlock l k ↔ a ∈ l ∨ a = k := by
  unfold addBlock
  by_cases h : k ∈ l
  · simp only [if_pos h]
    constructor
    · exact Or.inl
    · rintro (ha | rfl)
      · exact ha
      · exact h
  · simp [if_neg h]

theorem mem_removeBlock {l : List Key} {k a : Key} :
    a ∈ removeBlock l k ↔ a ∈ l ∧ a ≠ k := by
  simp [removeBlock]

theorem mem_remove {s : DServ} {k a : Key} :
    a ∈ (s.remove k).present ↔ a ∈ s.present ∧ a ≠ k := by
  simp [DServ.remove]

theorem flatten_map_ite_perm {α : Type} (x : α) (g : Nat → List α) :
    ∀ bs : List Nat, bs.Nodup → ∀ b₀, b₀ ∈ bs →
    ((bs.map (fun b => if b₀ = b then x :: g b else g b)).flatten).Perm
      (x :: (bs.map g).flatten)
  | [], _, b₀, hmem => absurd hmem (List.not_mem_nil b₀)
  | b :: bs, hnd, b₀, hmem => by
    rcases List.nodup_cons.mp hnd with ⟨hb, hnd'⟩
    by_cases hbb : b₀ = b
    · subst hbb
      simp only [List.map_cons, List.flatten_cons, if_pos rfl]
      have hrest : bs.map (fun c => if b₀ = c then x :: g c else g c)
          = bs.map g := by
        apply List.map_congr_left
        intro c hc
        have hne : b₀ ≠ c := fun hh => hb (hh ▸ hc)
        simp [hne]
      rw [hrest]
      exact List.Perm.refl _
    · have hmem' : b₀ ∈ bs := (List.mem_cons.mp hmem).resolve_left hbb
      simp only [List.map_cons, List.flatten_cons, if_neg hbb]
      refine ((flatten_map_ite_perm x g bs hnd' b₀ hmem').append_left
        (g b)).trans ?_
      exact List.perm_middle

theorem bucket_flatten_perm {α : Type} (f : α → Nat) (n : Nat) :
    ∀ l : List α, (∀ a ∈ l, f a < n) →
    (((List.range n).map (fun b => l.filter (fun a => f a = b))).flatten).Perm l
  | [], _ => by simp
  | a :: l, hf => by
    have hfa : f a < n := hf a (List.mem_cons_self a l)
    have ih := bucket_flatten_perm f n l
      (fun x hx => hf x (List.mem_cons_of_mem a hx))
    have hmap : (List.range n).map
          (fun b => (a :: l).filter (fun x => f x = b))
        = (List.range n).map (fun b => if f a = b then
            a :: l.filter (fun x => f x = b)
          else l.filter (fun x => f x = b)) := by
      apply List.map_congr_left
      intro b _hb
      rw [List.filter_cons]
      by_cases hc : f a = b <;> simp [hc]
    rw [hmap]
    refine (flatten_map_ite_perm a (fun b => l.filter (fun x => f x = b))
      (List.range n) (List.nodup_range n) (f a)
      (List.mem_range.mpr hfa)).trans ?_
    exact ih.cons a

theorem flatten_map_perm {α β : Type} (f g : β → List α) :
    ∀ bs : List β, (∀ b ∈ bs, (f b).Perm (g b)) →
    ((bs.map f).flatten).Perm ((bs.map g).flatten)
  | [], _ => List.Perm.refl _
  | b :: bs, h => by
    simp only [List.map_cons, List.flatten_cons]
    exact (h b (List.mem_cons_self b bs)).append
      (flatten_map_perm f g bs (fun c hc => h c (List.mem_cons_of_mem b hc)))

/-- The bucket encodings of one sharding level. -/
def bucketsOf (h : Nat → Key → Nat) (d f : Nat) (es : List (Key × Nat)) :
    List (Key × List Key) :=
  (List.range fanout).map
    (fun b => storeMFuel h (d + 1) f (es.filter (fun p => h d p.1 % fanout = b)))

theorem storeMFuel_zero (h : Nat → Key → Nat) (d : Nat)
    (es : List (Key × Nat)) :
    storeMFuel h d 0 es = (Key.leaf es, [Key.leaf es]) := rfl

theorem storeMFuel_succ_small (h : Nat → Key → Nat) (d f : Nat)
    (es : List (Key × Nat)) (hle : es.length ≤ maxItems) :
    storeMFuel h d (f + 1) es = (Key.leaf es, [Key.leaf es]) := by
  rw [storeMFuel, if_pos hle]

theorem storeMFuel_succ_big (h : Nat → Key → Nat) (d f : Nat)
    (es : List (Key × Nat)) (hgt : ¬ es.length ≤ maxItems) :
    storeMFuel h d (f + 1) es =
      (Key.branch ((bucketsOf h d f es).map Prod.fst),
        Key.branch ((bucketsOf h d f es).map Prod.fst) ::
          ((bucketsOf h d f es).map Prod.snd).flatten) := by
  rw [storeMFuel, if_neg hgt]
  rfl

theorem storeMFuel_fst_mem_snd (h : Nat → Key → Nat) (d f : Nat)
    (es : List (Key × Nat)) :
    (storeMFuel h d f es).1 ∈ (storeMFuel h d f es).2 := by
  match f with
  | 0 => simp [storeMFuel_zero]
  | f + 1 =>
    by_cases hle : es.length ≤ maxItems
    · simp [storeMFuel_succ_small h d f es hle]
    · rw [storeMFuel_succ_big h d f es hle]
      exact List.mem_cons_self _ _

theorem bucket_snd_subset (h : Nat → Key → Nat) (d f : Nat)
    (es : List (Key × Nat)) (hgt : ¬ es.length ≤ maxItems) (b : Nat)
    (hb : b ∈ List.range fanout) :
    (storeMFuel h (d + 1) f (es.filter (fun p => h d p.1 % fanout = b))).2 ⊆
      (storeMFuel h d (f + 1) es).2 := by
  rw [storeMFuel_succ_big h d f es hgt]
  intro x hx
  refine List.mem_cons_of_mem _ (List.mem_flatten.mpr ?_)
  refine ⟨(storeMFuel h (d + 1) f
    (es.filter (fun p => h d p.1 % fanout = b))).2, ?_, hx⟩
  exact List.mem_map.mpr ⟨storeMFuel h (d + 1) f
    (es.filter (fun p => h d p.1 % fanout = b)),
    List.mem_map.mpr ⟨b, hb, rfl⟩, rfl⟩

theorem loadChildren_ok (s : DServ)
    (rec : Key → Except PinErr (List (Key × Nat)))
    (outs : Key → List (Key × Nat)) :
    ∀ ks : List Key, (∀ k ∈ ks, k ∈ s.present ∧ rec k = .ok (outs k)) →
    loadChildren s rec ks = .ok ((ks.map outs).flatten)
  | [], _ => rfl
  | k :: ks, hk => by
    obtain ⟨hp, ho⟩ := hk k (List.mem_cons_self k ks)
    have ih := loadChildren_ok s rec outs ks
      (fun c hc => hk c (List.mem_cons_of_mem k hc))
    simp only [loadChildren, if_pos hp, ho, ih, List.map_cons,
      List.flatten_cons]

theorem loadMFuel_storeM (hsh : Nat → Key → Nat) (s : DServ) :
    ∀ f lf d es, f ≤ lf →
    (∀ x ∈ (storeMFuel hsh d f es).2, x ∈ s.present) →
    loadMFuel s lf (storeMFuel hsh d f es).1 =
      .ok (pureDecode lf (storeMFuel hsh d f es).1)
  | 0, lf, d, es, _, _ => by
    cases lf <;> simp [storeMFuel_zero, loadMFuel, pureDecode]
  | f + 1, lf, d, es, hle, hpres => by
    by_cases hsmall : es.length ≤ maxItems
    · rw [storeMFuel_succ_small hsh d f es hsmall]
      cases lf <;> simp [loadMFuel, pureDecode]
    · match lf, hle with
      | lf + 1, hle =>
        rw [storeMFuel_succ_big hsh d f es hsmall]
        simp only [loadMFuel, pureDecode]
        refine loadChildren_ok s _ (fun k => pureDecode lf k) _ ?_
        intro k hkmem
        obtain ⟨p, hpmem, hpeq⟩ := List.mem_map.mp hkmem
        obtain ⟨b, hb, hbeq⟩ := List.mem_map.mp hpmem
        subst hpeq
        subst hbeq
        constructor
        · exact hpres _ (bucket_snd_subset hsh d f es hsmall b hb
            (storeMFuel_fst_mem_snd hsh (d + 1) f _))
        · exact loadMFuel_storeM hsh s f lf (d + 1) _
            (Nat.le_of_succ_le_succ hle)
            (fun x hx => hpres x (bucket_snd_subset hsh d f es hsmall b hb hx))

theorem pureDecode_storeM_perm (hsh : Nat → Key → Nat) :
    ∀ f lf d es, f ≤ lf →
    (pureDecode lf (storeMFuel hsh d f es).1).Perm es
  | 0, lf, d, es, _ => by
    cases lf <;> simp [storeMFuel_zero, pureDecode]
  | f + 1, lf, d, es, hle => by
    by_cases hsmall : es.length ≤ maxItems
    · rw [storeMFuel_succ_small hsh d f es hsmall]
      cases lf <;> simp [pureDecode]
    · match lf, hle with
      | lf + 1, hle =>
        rw [storeMFuel_succ_big hsh d f es hsmall]
        simp only [pureDecode, bucketsOf, List.map_map]
        refine List.Perm.trans (flatten_map_perm _
          (fun b => es.filter (fun p => hsh d p.1 % fanout = b))
          (List.range fanout) ?_) ?_
        · intro b _hb
          exact pureDecode_storeM_perm hsh f lf (d + 1) _
            (Nat.le_of_succ_le_succ hle)
        · exact bucket_flatten_perm (fun p => hsh d p.1 % fanout) fanout es
            (fun a _ => Nat.mod_lt _ (by decide))

theorem filter_pos_eq_self {entries : List (Key × Nat)}
    (hpos : ∀ p ∈ entries, 0 < p.2) :
    entries.filter (fun p => p.2 ≠ 0) = entries :=
  List.filter_eq_self.mpr
    (fun p hp => decide_eq_true (Nat.pos_iff_ne_zero.mp (hpos p hp)))

theorem loadM_storeMultiset_perm (hsh : Nat → Key → Nat) (s : DServ)
    (entries : List (Key × Nat)) (lf : Nat)
    (hf : (entries.filter (fun p => p.2 ≠ 0)).length ≤ lf)
    (hpres : ∀ x ∈ (storeMultiset hsh entries).2, x ∈ s.present) :
    ∃ out, loadMFuel s lf (storeMultiset hsh entries).1 = .ok out ∧
      out.Perm (entries.filter (fun p => p.2 ≠ 0)) := by
  refine ⟨pureDecode lf (storeMultiset hsh entries).1, ?_, ?_⟩
  · exact loadMFuel_storeM hsh s _ lf 0 _ hf hpres
  · exact pureDecode_storeM_perm hsh _ lf 0 _ hf

theorem map_one_filter_eq_self (ks : List Key) :
    ((ks.map (fun k => (k, 1))).filter (fun p => p.2 ≠ 0))
      = ks.map (fun k => (k, 1)) := by
  refine List.filter_eq_self.mpr (fun p hp => ?_)
  obtain ⟨k, _, rfl⟩ := List.mem_map.mp hp
  exact decide_eq_true (by simp)

theorem loadM_storeSet_keys (hsh : Nat → Key → Nat) (s : DServ)
    (ks : List Key) (lf : Nat) (hf : ks.length ≤ lf)
    (hpres : ∀ x ∈ (storeSet hsh ks).2, x ∈ s.present) :
    ∃ out, loadMFuel s lf (storeSet hsh ks).1 = .ok out ∧
      (out.map Prod.fst).Perm ks := by
  have hlen : ((ks.map (fun k => (k, 1))).filter
      (fun p => p.2 ≠ 0)).length ≤ lf := by
    rw [map_one_filter_eq_self, List.length_map]
    exact hf
  obtain ⟨out, hload, hperm⟩ := loadM_storeMultiset_perm hsh s
    (ks.map (fun k => (k, 1))) lf hlen hpres
  rw [map_one_filter_eq_self] at hperm
  refine ⟨out, hload, ?_⟩
  have := hperm.map Prod.fst
  rwa [List.map_map, show Prod.fst ∘ (fun k : Key => (k, (1 : Nat))) = id
    from rfl, List.map_id] at this

theorem mem_addAll {s : DServ} {ks : List Key} {a : Key} :
    a ∈ (s.addAll ks).present ↔ a ∈ ks ∨ a ∈ s.present := by
  simp [DServ.addAll]

theorem mem_add {s : DServ} {k a : Key} :
    a ∈ (s.add k).present ↔ a = k ∨ a ∈ s.present := by
  simp [DServ.add]

theorem cleanup_subset (a : Key) :
    ∀ (cs : List Key) (s : DServ), a ∈ (cs.foldl cleanupStep s).present →
      a ∈ s.present
  | [], _, ha => ha
  | c :: cs, s, ha => by
    have h₁ := cleanup_subset a cs (cleanupStep s c) ha
    unfold cleanupStep at h₁
    by_cases hc : c ∈ s.present
    · rw [if_pos hc] at h₁
      exact (mem_remove.mp h₁).1
    · rwa [if_neg hc] at h₁

theorem cleanup_keeps (a : Key) :
    ∀ (cs : List Key) (s : DServ), a ∈ s.present → a ∉ cs →
      a ∈ (cs.foldl cleanupStep s).present
  | [], _, ha, _ => ha
  | c :: cs, s, ha, hno => by
    have hne : a ≠ c := fun hh => hno (hh ▸ List.mem_cons_self c cs)
    have hnotail : a ∉ cs := fun hh => hno (List.mem_cons_of_mem c hh)
    refine cleanup_keeps a cs (cleanupStep s c) ?_ hnotail
    unfold cleanupStep
    by_cases hc : c ∈ s.present
    · rw [if_pos hc]
      exact mem_remove.mpr ⟨ha, hne⟩
    · rwa [if_neg hc]

theorem cleanup_removes (c : Key) :
    ∀ (cs : List Key) (s : DServ), c ∈ cs →
      c ∉ (cs.foldl cleanupStep s).present
  | [], _, hc => absurd hc (List.not_mem_nil c)
  | b :: cs, s, hc => by
    by_cases hcc : c ∈ cs
    · exact cleanup_removes c cs (cleanupStep s b) hcc
    · have hceq : c = b := by
        rcases List.mem_cons.mp hc with hh | hh
        · exact hh
        · exact absurd hh hcc
      intro hfin
      have h₁ := cleanup_subset c cs (cleanupStep s b) hfin
      unfold cleanupStep at h₁
      by_cases hp : b ∈ s.present
      · rw [if_pos hp] at h₁
        exact (mem_remove.mp h₁).2 hceq
      · rw [if_neg hp] at h₁
        exact hp (hceq ▸ h₁)

theorem storeSet_fst_mem_snd (hsh : Nat → Key → Nat) (ks : List Key) :
    (storeSet hsh ks).1 ∈ (storeSet hsh ks).2 :=
  storeMFuel_fst_mem_snd hsh 0 _ _

theorem flush_dstore (h : Nat → Key → Nat) (e : Env) (s : DServ)
    (st : Pinner) :
    (flush h e s st).dstore =
      some (Key.root (storeSet h st.directPin).1 (storeSet h st.recursePin).1) :=
  rfl

theorem flush_internal (h : Nat → Key → Nat) (e : Env) (s : DServ)
    (st : Pinner) :
    (flush h e s st).pinner.internalPin =
      (storeSet h st.directPin).2 ++ (storeSet h st.recursePin).2 ++
        [Key.root (storeSet h st.directPin).1 (storeSet h st.recursePin).1] :=
  rfl

theorem flush_mem_present (h : Nat → Key → Nat) (e : Env) (s : DServ)
    (st : Pinner) (x : Key)
    (hadd : x ∈ (storeSet h st.directPin).2 ∨
      x ∈ (storeSet h st.recursePin).2 ∨
      x = Key.root (storeSet h st.directPin).1 (storeSet h st.recursePin).1)
    (hold : x ∉ oldNodes e st) :
    x ∈ (flush h e s st).dserv.present := by
  have hx₁ : x ∈ ((((s.addAll (storeSet h st.directPin).2).addAll
      (storeSet h st.recursePin).2).add emptyMNode).add
      (Key.root (storeSet h st.directPin).1
        (storeSet h st.recursePin).1)).present := by
    rcases hadd with hx | hx | hx
    · exact mem_add.mpr (Or.inr (mem_add.mpr (Or.inr (mem_addAll.mpr
        (Or.inr (mem_addAll.mpr (Or.inl hx)))))))
    · exact mem_add.mpr (Or.inr (mem_add.mpr (Or.inr (mem_addAll.mpr
        (Or.inl hx)))))
    · exact mem_add.mpr (Or.inl hx)
  cases hrn : st.rootNode with
  | none => simpa [flush, hrn] using hx₁
  | some old =>
    simp only [oldNodes, hrn, List.mem_cons, not_or] at hold
    simp only [flush, hrn]
    exact mem_remove.mpr
      ⟨cleanup_keeps x (linksOf e old) _ hx₁ hold.2, hold.1⟩

theorem flush_removes_old (h : Nat → Key → Nat) (e : Env) (s : DServ)
    (st : Pinner) (old : Key) (hrn : st.rootNode = some old) :
    old ∉ (flush h e s st).dserv.present ∧
      ∀ c ∈ linksOf e old, c ∉ (flush h e s st).dserv.present := by
  simp only [flush, hrn]
  constructor
  · intro hmem
    exact (mem_remove.mp hmem).2 rfl
  · intro c hc hmem
    exact cleanup_removes c (linksOf e old) _ hc (mem_remove.mp hmem).1

theorem getLink_direct (d r : Key) : getLink (Key.root d r) "direct" = .ok d :=
  rfl

theorem getLink_recursive (d r : Key) :
    getLink (Key.root d r) "recursive" = .ok r :=
  rfl

theorem loadPinner_flush (h : Nat → Key → Nat) (e : Env) (s : DServ)
    (st : Pinner) (lf : Nat)
    (hdf : st.directPin.length ≤ lf) (hrf : st.recursePin.length ≤ lf)
    (hdisj : ∀ x ∈ oldNodes e st,
      x ∉ (storeSet h st.directPin).2 ∧ x ∉ (storeSet h st.recursePin).2 ∧
        x ≠ Key.root (storeSet h st.directPin).1 (storeSet h st.recursePin).1) :
    ∃ q, loadPinner lf (flush h e s st).dserv (flush h e s st).dstore =
        .ok q ∧
      (∀ a, a ∈ q.directPin ↔ a ∈ st.directPin) ∧
      (∀ a, a ∈ q.recursePin ↔ a ∈ st.recursePin) := by
  have hpresD : ∀ x ∈ (storeSet h st.directPin).2,
      x ∈ (flush h e s st).dserv.present := by
    intro x hx
    refine flush_mem_present h e s st x (Or.inl hx) (fun hxo => ?_)
    exact (hdisj x hxo).1 hx
  have hpresR : ∀ x ∈ (storeSet h st.recursePin).2,
      x ∈ (flush h e s st).dserv.present := by
    intro x hx
    refine flush_mem_present h e s st x (Or.inr (Or.inl hx)) (fun hxo => ?_)
    exact (hdisj x hxo).2.1 hx
  have hrootmem : Key.root (storeSet h st.directPin).1
      (storeSet h st.recursePin).1 ∈ (flush h e s st).dserv.present := by
    refine flush_mem_present h e s st _ (Or.inr (Or.inr rfl)) (fun hxo => ?_)
    exact (hdisj _ hxo).2.2 rfl
  have hget : (flush h e s st).dserv.get (Key.root (storeSet h st.directPin).1
      (storeSet h st.recursePin).1) = some (Key.root
        (storeSet h st.directPin).1 (storeSet h st.recursePin).1) := by
    unfold DServ.get
    rw [if_pos hrootmem]
  have hndmem : (storeSet h st.directPin).1 ∈ (flush h e s st).dserv.present :=
    hpresD _ (storeSet_fst_mem_snd h st.directPin)
  have hnrmem : (storeSet h st.recursePin).1 ∈
      (flush h e s st).dserv.present :=
    hpresR _ (storeSet_fst_mem_snd h st.recursePin)
  obtain ⟨outD, hloadD, hpermD⟩ :=
    loadM_storeSet_keys h (flush h e s st).dserv st.directPin lf hdf hpresD
  obtain ⟨outR, hloadR, hpermR⟩ :=
    loadM_storeSet_keys h (flush h e s st).dserv st.recursePin lf hrf hpresR
  refine ⟨Pinner.mk (outR.map Prod.fst) (outD.map Prod.fst)
      (Key.root (storeSet h st.directPin).1 (storeSet h st.recursePin).1 ::
        (nodesUnder lf (storeSet h st.recursePin).1 ++
          nodesUnder lf (storeSet h st.directPin).1))
      (some (Key.root (storeSet h st.directPin).1
        (storeSet h st.recursePin).1)), ?_, ?_, ?_⟩
  · rw [flush_dstore]
    simp only [loadPinner, hget, loadSetE, getLink_recursive, getLink_direct,
      hnrmem, hndmem, if_true, hloadR, hloadD]
  · intro a
    exact hpermD.mem_iff
  · intro a
    exact hpermR.mem_iff

theorem pin_direct_getfail (e : Env) (s : DServ) (st : Pinner) (k : Key)
    (hg : s.get k = none) :
    pin e s st k false = (st, some PinErr.notFound) := by
  simp [pin, hg]

theorem pin_direct_recpinned (e : Env) (s : DServ) (st : Pinner) (k nd : Key)
    (hg : s.get k = some nd) (hkr : k ∈ st.recursePin) :
    pin e s st k false = (st, some (PinErr.alreadyPinnedRecursively k)) := by
  simp [pin, hg, hkr]

theorem pin_direct_success (e : Env) (s : DServ) (st : Pinner) (k nd : Key)
    (hg : s.get k = some nd) (hkr : k ∉ st.recursePin) :
    pin e s st k false =
      ({ st with directPin := addBlock st.directPin k }, none) := by
  simp [pin, hg, hkr]

theorem pin_rec_noop (e : Env) (s : DServ) (st : Pinner) (k : Key)
    (hkr : k ∈ st.recursePin) : pin e s st k true = (st, none) := by
  simp [pin, hkr]

theorem pin_rec_fail_mem (e : Env) (s : DServ) (st : Pinner) (k : Key)
    (m : PinErr) (hkr : k ∉ st.recursePin) (hkd : k ∈ st.directPin)
    (hm : e.fetchRes k = some m) :
    pin e s st k true =
      ({ st with directPin := removeBlock st.directPin k }, some m) := by
  simp [pin, hkr, hkd, hm]

theorem pin_rec_fail_nomem (e : Env) (s : DServ) (st : Pinner) (k : Key)
    (m : PinErr) (hkr : k ∉ st.recursePin) (hkd : k ∉ st.directPin)
    (hm : e.fetchRes k = some m) :
    pin e s st k true = (st, some m) := by
  simp [pin, hkr, hkd, hm]

theorem pin_rec_success_mem (e : Env) (s : DServ) (st : Pinner) (k : Key)
    (hkr : k ∉ st.recursePin) (hkd : k ∈ st.directPin)
    (hm : e.fetchRes k = none) :
    pin e s st k true =
      ({ st with
          directPin := removeBlock st.directPin k
          recursePin := addBlock st.recursePin k }, none) := by
  simp [pin, hkr, hkd, hm]

theorem pin_rec_success_nomem (e : Env) (s : DServ) (st : Pinner) (k : Key)
    (hkr : k ∉ st.recursePin) (hkd : k ∉ st.directPin)
    (hm : e.fetchRes k = none) :
    pin e s st k true =
      ({ st with recursePin := addBlock st.recursePin k }, none) := by
  simp [pin, hkr, hkd, hm]

theorem unpin_shape (e : Env) (s : DServ) (fuel : Nat) (st : Pinner) (k : Key)
    (rec : Bool) :
    (unpin e s fuel st k rec).1 = st ∨
    (unpin e s fuel st k rec).1 =
      { st with recursePin := removeBlock st.recursePin k } ∨
    (unpin e s fuel st k rec).1 =
      { st with directPin := removeBlock st.directPin k } := by
  unfold unpin
  rcases hIs : isPinnedWithType e s fuel st k "all" with ⟨reason, pinned, err⟩
  simp only [hIs]
  cases err with
  | some m => exact Or.inl rfl
  | none =>
    by_cases hp : pinned = true
    · simp only [hp]
      by_cases hrec : reason = "recursive"
      · cases rec with
        | true => simp [hrec]
        | false => simp [hrec]
      · by_cases hdir : reason = "direct"
        · simp [hrec, hdir]
        · simp [hrec, hdir]
    · simp [hp]

theorem pin_preserves_disjoint (e : Env) (s : DServ) (st : Pinner) (k : Key)
    (r : Bool) (hd : ∀ a, ¬(a ∈ st.directPin ∧ a ∈ st.recursePin)) :
    ∀ a, ¬(a ∈ (pin e s st k r).1.directPin ∧
      a ∈ (pin e s st k r).1.recursePin) := by
  intro a
  cases r with
  | false =>
    cases hg : s.get k with
    | none => rw [pin_direct_getfail e s st k hg]; exact hd a
    | some nd =>
      by_cases hkr : k ∈ st.recursePin
      · rw [pin_direct_recpinned e s st k nd hg hkr]; exact hd a
      · rw [pin_direct_success e s st k nd hg hkr]
        rintro ⟨had, har⟩
        rcases mem_addBlock.mp had with ha | rfl
        · exact hd a ⟨ha, har⟩
        · exact hkr har
  | true =>
    by_cases hkr : k ∈ st.recursePin
    · rw [pin_rec_noop e s st k hkr]; exact hd a
    · cases hm : e.fetchRes k with
      | some m =>
        by_cases hkd : k ∈ st.directPin
        · rw [pin_rec_fail_mem e s st k m hkr hkd hm]
          rintro ⟨had, har⟩
          exact hd a ⟨(mem_removeBlock.mp had).1, har⟩
        · rw [pin_rec_fail_nomem e s st k m hkr hkd hm]; exact hd a
      | none =>
        by_cases hkd : k ∈ st.directPin
        · rw [pin_rec_success_mem e s st k hkr hkd hm]
          rintro ⟨had, har⟩
          obtain ⟨had', hne⟩ := mem_removeBlock.mp had
          rcases mem_addBlock.mp har with ha | rfl
          · exact hd a ⟨had', ha⟩
          · exact hne rfl
        · rw [pin_rec_success_nomem e s st k hkr hkd hm]
          rintro ⟨had, har⟩
          rcases mem_addBlock.mp har with ha | rfl
          · exact hd a ⟨had, ha⟩
          · exact hkd had

theorem unpin_preserves_disjoint (e : Env) (s : DServ) (fuel : Nat)
    (st : Pinner) (k : Key) (rec : Bool)
    (hd : ∀ a, ¬(a ∈ st.directPin ∧ a ∈ st.recursePin)) :
    ∀ a, ¬(a ∈ (unpin e s fuel st k rec).1.directPin ∧
      a ∈ (unpin e s fuel st k rec).1.recursePin) := by
  intro a
  rcases unpin_shape e s fuel st k rec with hsh | hsh | hsh <;> rw [hsh]
  · exact hd a
  · rintro ⟨had, har⟩
    exact hd a ⟨had, (mem_removeBlock.mp har).1⟩
  · rintro ⟨had, har⟩
    exact hd a ⟨(mem_removeBlock.mp had).1, har⟩

theorem reaches_disjoint {st : Pinner} (hr : Reaches newPinner st) :
    ∀ a, ¬(a ∈ st.directPin ∧ a ∈ st.recursePin) := by
  induction hr with
  | refl => intro a; simp [newPinner]
  | pinStep e s k r _ ih => exact pin_preserves_disjoint e s _ k r ih
  | unpinStep e s fuel k r _ ih =>
    exact unpin_preserves_disjoint e s fuel _ k r ih

theorem childScan_err (s : DServ) (rec : Key → Except PinErr Bool) (child : Key)
    (hrec : ∀ nd m, rec nd = .error m →
      m = PinErr.depthLimit ∨ m = PinErr.notFound) :
    ∀ ls m, childScan s rec child ls = .error m →
      m = PinErr.depthLimit ∨ m = PinErr.notFound
  | [], m, hm => by simp [childScan] at hm
  | l :: ls, m, hm => by
    unfold childScan at hm
    by_cases hl : l = child
    · rw [if_pos hl] at hm
      cases hm
    · rw [if_neg hl] at hm
      cases hg : s.get l with
      | none =>
        rw [hg] at hm
        dsimp only at hm
        cases hm
        exact Or.inr rfl
      | some nd =>
        rw [hg] at hm
        dsimp only at hm
        cases hv : rec nd with
        | error m₂ =>
          rw [hv] at hm
          dsimp only at hm
          cases hm
          exact hrec nd m hv
        | ok b =>
          rw [hv] at hm
          cases b with
          | true => dsimp only at hm; cases hm
          | false =>
            dsimp only at hm
            exact childScan_err s rec child hrec ls m hm

theorem hasChild_err (e : Env) (s : DServ) :
    ∀ fuel root child m, hasChild e s fuel root child = .error m →
      m = PinErr.depthLimit ∨ m = PinErr.notFound
  | 0, root, child, m, hm => by
    unfold hasChild at hm
    cases hm
    exact Or.inl rfl
  | fuel + 1, root, child, m, hm => by
    unfold hasChild at hm
    exact childScan_err s _ child
      (fun nd m₂ hm₂ => hasChild_err e s fuel nd child m₂ hm₂)
      (linksOf e root) m hm

theorem indirectWalk_shape (e : Env) (s : DServ) (fuel : Nat) (k : Key) :
    ∀ roots, (∃ rk, rk ∈ roots ∧
        indirectWalk e s fuel k roots = (b58String rk, true, none)) ∨
      ∃ m, indirectWalk e s fuel k roots = ("", false, m) ∧
        m ≠ some PinErr.notPinned
  | [] => Or.inr ⟨none, rfl, by simp⟩
  | rk :: rks => by
    unfold indirectWalk
    cases hg : s.get rk with
    | none => exact Or.inr ⟨some PinErr.notFound, rfl, by simp⟩
    | some rnd =>
      dsimp only
      cases hv : hasChild e s fuel rnd k with
      | error m =>
        dsimp only
        refine Or.inr ⟨some m, rfl, ?_⟩
        rcases hasChild_err e s fuel rnd k m hv with hh | hh <;> simp [hh]
      | ok b =>
        cases b with
        | true => exact Or.inl ⟨rk, List.mem_cons_self rk rks, rfl⟩
        | false =>
          dsimp only
          rcases indirectWalk_shape e s fuel k rks with
            ⟨rk₂, hmem, heq⟩ | ⟨m, heq, hne⟩
          · exact Or.inl ⟨rk₂, List.mem_cons_of_mem rk hmem, heq⟩
          · exact Or.inr ⟨m, heq, hne⟩

theorem indirectWalk_found (e : Env) (s : DServ) (fuel : Nat) (k : Key)
    (roots : List Key) (expl : String)
    (hw : indirectWalk e s fuel k roots = (expl, true, none)) :
    ∃ rk, rk ∈ roots ∧ expl = b58String rk := by
  rcases indirectWalk_shape e s fuel k roots with ⟨rk, hmem, heq⟩ | ⟨m, heq, _⟩
  · rw [heq] at hw
    exact ⟨rk, hmem, (Prod.mk.inj hw).1.symm⟩
  · rw [heq] at hw
    cases (Prod.mk.inj (Prod.mk.inj hw).2).1

theorem b58String_ne_recursive (k : Key) : b58String k ≠ "recursive" := by
  cases k with
  | uid n =>
    intro hcontra
    have hd := congrArg String.data hcontra
    rw [b58String, String.data_append] at hd
    exact absurd (List.cons.inj hd).1 (by decide)
  | leaf xs => simp [b58String]
  | branch xs => simp [b58String]
  | root a b => simp [b58String]

theorem b58String_ne_direct (k : Key) : b58String k ≠ "direct" := by
  cases k with
  | uid n =>
    intro hcontra
    have hd := congrArg String.data hcontra
    rw [b58String, String.data_append] at hd
    exact absurd (List.cons.inj hd).1 (by decide)
  | leaf xs => simp [b58String]
  | branch xs => simp [b58String]
  | root a b => simp [b58String]

theorem isPinned_all_rec (e : Env) (s : DServ) (fuel : Nat) (st : Pinner)
    (k : Key) (hkr : k ∈ st.recursePin) :
    isPinnedWithType e s fuel st k "all" = ("recursive", true, none) := by
  simp [isPinnedWithType, hkr]

theorem isPinned_all_dir (e : Env) (s : DServ) (fuel : Nat) (st : Pinner)
    (k : Key) (hkr : k ∉ st.recursePin) (hkd : k ∈ st.directPin) :
    isPinnedWithType e s fuel st k "all" = ("direct", true, none) := by
  simp [isPinnedWithType, hkr, hkd]

theorem isPinned_all_int (e : Env) (s : DServ) (fuel : Nat) (st : Pinner)
    (k : Key) (hkr : k ∉ st.recursePin) (hkd : k ∉ st.directPin)
    (hki : k ∈ st.internalPin) :
    isPinnedWithType e s fuel st k "all" = ("internal", true, none) := by
  simp [isPinnedWithType, hkr, hkd, hki]

theorem isPinned_all_walk (e : Env) (s : DServ) (fuel : Nat) (st : Pinner)
    (k : Key) (hkr : k ∉ st.recursePin) (hkd : k ∉ st.directPin)
    (hki : k ∉ st.internalPin) :
    isPinnedWithType e s fuel st k "all" =
      indirectWalk e s fuel k st.recursePin := by
  simp [isPinnedWithType, hkr, hkd, hki]

theorem isPinned_invalid (e : Env) (s : DServ) (fuel : Nat) (st : Pinner)
    (k : Key) (t : String) (h₁ : t ≠ "all") (h₂ : t ≠ "direct")
    (h₃ : t ≠ "indirect") (h₄ : t ≠ "recursive") (h₅ : t ≠ "internal") :
    isPinnedWithType e s fuel st k t =
      ("", false, some (PinErr.invalidType t)) := by
  unfold isPinnedWithType
  rw [if_pos]
  simp [h₁, h₂, h₃, h₄, h₅]

theorem unpin_rec_true (e : Env) (s : DServ) (fuel : Nat) (st : Pinner)
    (k : Key) (hkr : k ∈ st.recursePin) :
    unpin e s fuel st k true =
      ({ st with recursePin := removeBlock st.recursePin k }, none) := by
  unfold unpin
  rw [isPinned_all_rec e s fuel st k hkr]
  simp

theorem unpin_rec_false (e : Env) (s : DServ) (fuel : Nat) (st : Pinner)
    (k : Key) (hkr : k ∈ st.recursePin) :
    unpin e s fuel st k false =
      (st, some (PinErr.pinnedRecursively k)) := by
  unfold unpin
  rw [isPinned_all_rec e s fuel st k hkr]
  simp

theorem unpin_dir (e : Env) (s : DServ) (fuel : Nat) (st : Pinner)
    (k : Key) (rec : Bool) (hkr : k ∉ st.recursePin) (hkd : k ∈ st.directPin) :
    unpin e s fuel st k rec =
      ({ st with directPin := removeBlock st.directPin k }, none) := by
  unfold unpin
  rw [isPinned_all_dir e s fuel st k hkr hkd]
  simp

theorem unpin_indirect (e : Env) (s : DServ) (fuel : Nat) (st : Pinner)
    (k : Key) (rec : Bool) (expl : String) (hkr : k ∉ st.recursePin)
    (hkd : k ∉ st.directPin) (hki : k ∉ st.internalPin)
    (hw : indirectWalk e s fuel k st.recursePin = (expl, true, none)) :
    unpin e s fuel st k rec = (st, some (PinErr.pinnedIndirectly k expl)) := by
  obtain ⟨rk, hmem, rfl⟩ := indirectWalk_found e s fuel k st.recursePin expl hw
  unfold unpin
  rw [isPinned_all_walk e s fuel st k hkr hkd hki, hw]
  dsimp only
  rw [if_neg (by simp), if_neg (b58String_ne_recursive rk),
    if_neg (b58String_ne_direct rk)]

theorem unpin_notpinned (e : Env) (s : DServ) (fuel : Nat) (st : Pinner)
    (k : Key) (rec : Bool) (hkr : k ∉ st.recursePin) (hkd : k ∉ st.directPin)
    (hki : k ∉ st.internalPin)
    (hw : indirectWalk e s fuel k st.recursePin = ("", false, none)) :
    unpin e s fuel st k rec = (st, some PinErr.notPinned) := by
  unfold unpin
  rw [isPinned_all_walk e s fuel st k hkr hkd hki, hw]
  simp

theorem unpin_walkerr (e : Env) (s : DServ) (fuel : Nat) (st : Pinner)
    (k : Key) (rec : Bool) (m : PinErr) (hkr : k ∉ st.recursePin)
    (hkd : k ∉ st.directPin) (hki : k ∉ st.internalPin)
    (hw : indirectWalk e s fuel k st.recursePin = ("", false, some m)) :
    unpin e s fuel st k rec = (st, some m) := by
  unfold unpin
  rw [isPinned_all_walk e s fuel st k hkr hkd hki, hw]

/--
C1 (amended): (a) the PinSet codec round-trips exactly: decoding the
encoding of any mapping with positive multiplicities over the store holding
the encoding's nodes reproduces the mapping up to order, for any fan-out
hash, any size (including the empty mapping and mappings beyond the
sharding threshold) and any sufficient decode depth; (b) after a successful
Flush whose old-root cleanup removes no node of the new encoding (in
particular whenever the previous root and its link children are disjoint
from the new encoding's nodes, e.g. a pinner with no previous root),
LoadPinner on the same store succeeds and reproduces DirectKeys and
RecursiveKeys as sets.  The unconditional claim is refuted by
`C1_counterexample`: when the previous root's nodes coincide with the new
encoding, the cleanup step of Flush deletes the just-written nodes.
-/
theorem C1_roundtrip :
    (∀ (hsh : Nat → Key → Nat) (s : DServ) (entries : List (Key × Nat))
        (lf : Nat), (∀ p ∈ entries, 0 < p.2) → entries.length ≤ lf →
      ∃ out, loadMFuel (s.addAll (storeMultiset hsh entries).2) lf
          (storeMultiset hsh entries).1 = .ok out ∧ out.Perm entries) ∧
    (∀ (hsh : Nat → Key → Nat) (e : Env) (s : DServ) (st : Pinner) (lf : Nat),
      st.directPin.length ≤ lf → st.recursePin.length ≤ lf →
      (∀ x ∈ oldNodes e st, x ∉ (storeSet hsh st.directPin).2 ∧
        x ∉ (storeSet hsh st.recursePin).2 ∧
        x ≠ Key.root (storeSet hsh st.directPin).1
          (storeSet hsh st.recursePin).1) →
      ∃ q, loadPinner lf (flush hsh e s st).dserv (flush hsh e s st).dstore =
          .ok q ∧
        (∀ a, a ∈ directKeys q ↔ a ∈ directKeys (flush hsh e s st).pinner) ∧
        (∀ a, a ∈ recursiveKeys q ↔
          a ∈ recursiveKeys (flush hsh e s st).pinner)) := by
  constructor
  · intro hsh s entries lf hpos hlen
    have hfilter : entries.filter (fun p => p.2 ≠ 0) = entries :=
      filter_pos_eq_self hpos
    have hlen₂ : (entries.filter (fun p => p.2 ≠ 0)).length ≤ lf := by
      rw [hfilter]; exact hlen
    obtain ⟨out, hload, hperm⟩ := loadM_storeMultiset_perm hsh
      (s.addAll (storeMultiset hsh entries).2) entries lf hlen₂
      (fun x hx => mem_addAll.mpr (Or.inl hx))
    exact ⟨out, hload, hfilter ▸ hperm⟩
  · intro hsh e s st lf hdf hrf hdisj
    obtain ⟨q, hload, hdq, hrq⟩ := loadPinner_flush hsh e s st lf hdf hrf hdisj
    exact ⟨q, hload, fun a => hdq a, fun a => hrq a⟩

/-- C1 witness: the codec round-trip at a concrete one-entry mapping, and
the Flush/Load round-trip at the specification's Pin(A) / Pin(B, recursive)
scenario starting from a pinner with no previous root. -/
theorem C1_witness :
    (∃ out, loadMFuel ((DServ.mk []).addAll
        (storeMultiset exHash [(Key.uid 3, 2)]).2) 1
        (storeMultiset exHash [(Key.uid 3, 2)]).1 = .ok out ∧
        out.Perm [(Key.uid 3, 2)]) ∧
    (∃ q, loadPinner 2 (flush exHash exEnv (DServ.mk []) exPinnerAB).dserv
        (flush exHash exEnv (DServ.mk []) exPinnerAB).dstore = .ok q ∧
      (∀ a, a ∈ directKeys q ↔
        a ∈ directKeys (flush exHash exEnv (DServ.mk []) exPinnerAB).pinner) ∧
      (∀ a, a ∈ recursiveKeys q ↔
        a ∈ recursiveKeys
          (flush exHash exEnv (DServ.mk []) exPinnerAB).pinner)) :=
  ⟨C1_roundtrip.1 exHash (DServ.mk []) [(Key.uid 3, 2)] 1 (by decide)
      (by decide),
   C1_roundtrip.2 exHash exEnv (DServ.mk []) exPinnerAB 2 (by decide)
      (by decide) (by decide)⟩

/-- C1 counterexample: for the pinner state left by a previous flush of the
empty pinner (a legitimate pinner state, exactly what LoadPinner would also
produce), the old root's encoding coincides with the new encoding, Flush's
cleanup removes the shared nodes including the just-persisted root, and
LoadPinner on the flushed store fails instead of reproducing the key sets. -/
theorem C1_counterexample :
    loadPinner 5 (flush exHash exEnv exFlushed.dserv exFlushed.pinner).dserv
        (flush exHash exEnv exFlushed.dserv exFlushed.pinner).dstore =
      .error (PinErr.cannotFindPinningRoot PinErr.notFound) := by
  decide

/--
C2 (confirmed): every state reachable from `NewPinner` by Pin/Unpin calls
has disjoint direct and recursive sets; moreover on such a state a
recursive Pin leaves the target outside the direct set (removing any
existing direct entry), and a direct Pin on a recursively pinned target
fails without mutating the state.
-/
theorem C2_invariant {st : Pinner} (hr : Reaches newPinner st) :
    (∀ a, ¬(a ∈ directKeys st ∧ a ∈ recursiveKeys st)) ∧
    (∀ e s k, k ∉ (pin e s st k true).1.directPin) ∧
    (∀ e s k, k ∈ st.recursePin →
      (pin e s st k false).1 = st ∧ (pin e s st k false).2 ≠ none) := by
  have hd := reaches_disjoint hr
  refine ⟨hd, ?_, ?_⟩
  · intro e s k
    by_cases hkr : k ∈ st.recursePin
    · rw [pin_rec_noop e s st k hkr]
      exact fun hc => hd k ⟨hc, hkr⟩
    · cases hm : e.fetchRes k with
      | some m =>
        by_cases hkd : k ∈ st.directPin
        · rw [pin_rec_fail_mem e s st k m hkr hkd hm]
          exact fun hc => (mem_removeBlock.mp hc).2 rfl
        · rw [pin_rec_fail_nomem e s st k m hkr hkd hm]
          exact hkd
      | none =>
        by_cases hkd : k ∈ st.directPin
        · rw [pin_rec_success_mem e s st k hkr hkd hm]
          exact fun hc => (mem_removeBlock.mp hc).2 rfl
        · rw [pin_rec_success_nomem e s st k hkr hkd hm]
          exact hkd
  · intro e s k hkr
    cases hg : s.get k with
    | none =>
      rw [pin_direct_getfail e s st k hg]
      exact ⟨rfl, by simp⟩
    | some nd =>
      rw [pin_direct_recpinned e s st k nd hg hkr]
      exact ⟨rfl, by simp⟩

/-- C2 witness: the invariant and both corollaries evaluated on the state
reached by one recursive Pin from a fresh pinner. -/
theorem C2_witness :
    ¬(Key.uid 0 ∈
        directKeys (pin exEnv (DServ.mk []) newPinner (Key.uid 0) true).1 ∧
      Key.uid 0 ∈
        recursiveKeys (pin exEnv (DServ.mk []) newPinner (Key.uid 0) true).1) ∧
    Key.uid 0 ∉ (pin exEnv (DServ.mk [])
      (pin exEnv (DServ.mk []) newPinner (Key.uid 0) true).1
      (Key.uid 0) true).1.directPin ∧
    ((pin exEnv (DServ.mk [])
        (pin exEnv (DServ.mk []) newPinner (Key.uid 0) true).1
        (Key.uid 0) false).1 =
      (pin exEnv (DServ.mk []) newPinner (Key.uid 0) true).1 ∧
      (pin exEnv (DServ.mk [])
        (pin exEnv (DServ.mk []) newPinner (Key.uid 0) true).1
        (Key.uid 0) false).2 ≠ none) := by
  have hreach : Reaches newPinner
      (pin exEnv (DServ.mk []) newPinner (Key.uid 0) true).1 :=
    Reaches.pinStep exEnv (DServ.mk []) (Key.uid 0) true
      (Reaches.refl newPinner)
  exact ⟨(C2_invariant hreach).1 (Key.uid 0),
    (C2_invariant hreach).2.1 exEnv (DServ.mk []) (Key.uid 0),
    (C2_invariant hreach).2.2 exEnv (DServ.mk []) (Key.uid 0) (by decide)⟩

/--
C3 (amended): for a non-recursive Pin the target fetch is attempted first:
if the target cannot be fetched the call fails with the fetch error even
when the target is already recursively pinned; otherwise an already
recursively pinned target fails with the already-pinned error and no set is
mutated; otherwise the target is added to the direct set.  The claim's
ordering (already-recursively-pinned check before the fetch) is refuted by
`C3_counterexample`.
-/
theorem C3_direct_pin (e : Env) (s : DServ) (st : Pinner) (k : Key) :
    (s.get k = none → pin e s st k false = (st, some PinErr.notFound)) ∧
    (∀ nd, s.get k = some nd → k ∈ st.recursePin →
      pin e s st k false = (st, some (PinErr.alreadyPinnedRecursively k))) ∧
    (∀ nd, s.get k = some nd → k ∉ st.recursePin →
      pin e s st k false =
        ({ st with directPin := addBlock st.directPin k }, none)) :=
  ⟨fun hg => pin_direct_getfail e s st k hg,
   fun nd hg hkr => pin_direct_recpinned e s st k nd hg hkr,
   fun nd hg hkr => pin_direct_success e s st k nd hg hkr⟩

/-- C3 witness: all three branches of the amended claim at concrete
inputs. -/
theorem C3_witness :
    pin exEnv (DServ.mk []) newPinner (Key.uid 0) false =
      (newPinner, some PinErr.notFound) ∧
    pin exEnv (DServ.mk [Key.uid 0]) exPinnerRec (Key.uid 0) false =
      (exPinnerRec, some (PinErr.alreadyPinnedRecursively (Key.uid 0))) ∧
    pin exEnv (DServ.mk [Key.uid 0]) newPinner (Key.uid 0) false =
      ({ newPinner with
          directPin := addBlock newPinner.directPin (Key.uid 0) }, none) :=
  ⟨(C3_direct_pin exEnv (DServ.mk []) newPinner (Key.uid 0)).1 (by decide),
   (C3_direct_pin exEnv (DServ.mk [Key.uid 0]) exPinnerRec (Key.uid 0)).2.1
     (Key.uid 0) (by decide) (by decide),
   (C3_direct_pin exEnv (DServ.mk [Key.uid 0]) newPinner (Key.uid 0)).2.2
     (Key.uid 0) (by decide) (by decide)⟩

/-- C3 counterexample: a recursively pinned target that cannot be fetched.
The claim predicts the already-pinned-recursively error (check before
fetch); the code fetches first and returns the not-found fetch error. -/
theorem C3_counterexample :
    pin exEnv (DServ.mk []) exPinnerRec (Key.uid 0) false =
      (exPinnerRec, some PinErr.notFound) ∧
    some PinErr.notFound ≠
      some (PinErr.alreadyPinnedRecursively (Key.uid 0)) := by
  decide

/--
C4 (confirmed): a recursive Pin on an already recursively pinned target
succeeds as a no-op for every environment (hence without consulting the
fetch collaborator); and when the target is not recursively pinned and the
graph fetch fails, the call returns exactly the fetch error, the recursive
set is unchanged, and the target is not recursively pinned afterward.
-/
theorem C4_recursive_pin (e : Env) (s : DServ) (st : Pinner) (k : Key) :
    (k ∈ st.recursePin → pin e s st k true = (st, none)) ∧
    (∀ m, k ∉ st.recursePin → e.fetchRes k = some m →
      (pin e s st k true).2 = some m ∧
      (pin e s st k true).1.recursePin = st.recursePin ∧
      k ∉ (pin e s st k true).1.recursePin) := by
  constructor
  · exact fun hkr => pin_rec_noop e s st k hkr
  · intro m hkr hm
    by_cases hkd : k ∈ st.directPin
    · rw [pin_rec_fail_mem e s st k m hkr hkd hm]
      exact ⟨rfl, rfl, hkr⟩
    · rw [pin_rec_fail_nomem e s st k m hkr hkd hm]
      exact ⟨rfl, rfl, hkr⟩

/-- C4 witness: the no-op on an already recursive pin under a failing fetch
environment, and the failed recursive pin on a fresh pinner. -/
theorem C4_witness :
    pin exEnvFail (DServ.mk []) exPinnerRec (Key.uid 0) true =
      (exPinnerRec, none) ∧
    ((pin exEnvFail (DServ.mk []) newPinner (Key.uid 0) true).2 =
        some (PinErr.fetchFailed "offline") ∧
      (pin exEnvFail (DServ.mk []) newPinner (Key.uid 0) true).1.recursePin =
        newPinner.recursePin ∧
      Key.uid 0 ∉
        (pin exEnvFail (DServ.mk []) newPinner (Key.uid 0) true).1.recursePin) :=
  ⟨(C4_recursive_pin exEnvFail (DServ.mk []) exPinnerRec (Key.uid 0)).1
      (by decide),
   (C4_recursive_pin exEnvFail (DServ.mk []) newPinner (Key.uid 0)).2
      (PinErr.fetchFailed "offline") (by decide) (by decide)⟩

theorem unpin_internal (e : Env) (s : DServ) (fuel : Nat) (st : Pinner)
    (k : Key) (rec : Bool) (hkr : k ∉ st.recursePin) (hkd : k ∉ st.directPin)
    (hki : k ∈ st.internalPin) :
    unpin e s fuel st k rec =
      (st, some (PinErr.pinnedIndirectly k "internal")) := by
  unfold unpin
  rw [isPinned_all_int e s fuel st k hkr hkd hki]
  simp

/--
C5 (confirmed): Unpin returns `ErrNotPinned` exactly when the
classification query reports the target unpinned; a recursively pinned
target is removed on `recursive = true` and rejected with the
pinned-recursively error otherwise; a directly pinned (non-recursive)
target is removed regardless of the flag; a target classified only
indirectly fails with an error naming (the base58 string of) the recursive
root it is reachable under, with no set changes.
-/
theorem C5_unpin (e : Env) (s : DServ) (fuel : Nat) (st : Pinner) (k : Key) :
    (∀ rec, (unpin e s fuel st k rec).2 = some PinErr.notPinned ↔
      isPinnedWithType e s fuel st k "all" = ("", false, none)) ∧
    (k ∈ st.recursePin →
      unpin e s fuel st k true =
        ({ st with recursePin := removeBlock st.recursePin k }, none) ∧
      unpin e s fuel st k false =
        (st, some (PinErr.pinnedRecursively k))) ∧
    (k ∉ st.recursePin → k ∈ st.directPin → ∀ rec,
      unpin e s fuel st k rec =
        ({ st with directPin := removeBlock st.directPin k }, none)) ∧
    (∀ expl rec, k ∉ st.recursePin → k ∉ st.directPin → k ∉ st.internalPin →
      indirectWalk e s fuel k st.recursePin = (expl, true, none) →
      unpin e s fuel st k rec = (st, some (PinErr.pinnedIndirectly k expl)) ∧
      ∃ rk, rk ∈ st.recursePin ∧ expl = b58String rk) := by
  refine ⟨?_, ?_, ?_, ?_⟩
  · intro rec
    by_cases hkr : k ∈ st.recursePin
    · rw [isPinned_all_rec e s fuel st k hkr]
      cases rec with
      | true => rw [unpin_rec_true e s fuel st k hkr]; simp
      | false => rw [unpin_rec_false e s fuel st k hkr]; simp
    · by_cases hkd : k ∈ st.directPin
      · rw [isPinned_all_dir e s fuel st k hkr hkd,
          unpin_dir e s fuel st k rec hkr hkd]
        simp
      · by_cases hki : k ∈ st.internalPin
        · rw [isPinned_all_int e s fuel st k hkr hkd hki,
            unpin_internal e s fuel st k rec hkr hkd hki]
          simp
        · rw [isPinned_all_walk e s fuel st k hkr hkd hki]
          rcases indirectWalk_shape e s fuel k st.recursePin with
            ⟨rk, _hmem, heq⟩ | ⟨m, heq, hne⟩
          · rw [heq, unpin_indirect e s fuel st k rec _ hkr hkd hki heq]
            simp
          · cases m with
            | none =>
              rw [heq, unpin_notpinned e s fuel st k rec hkr hkd hki heq]
              simp
            | some m₂ =>
              have hm₂ : m₂ ≠ PinErr.notPinned := fun hh => hne (by rw [hh])
              rw [heq, unpin_walkerr e s fuel st k rec m₂ hkr hkd hki heq]
              simp [hm₂]
  · intro hkr
    exact ⟨unpin_rec_true e s fuel st k hkr, unpin_rec_false e s fuel st k hkr⟩
  · intro hkr hkd rec
    exact unpin_dir e s fuel st k rec hkr hkd
  · intro expl rec hkr hkd hki hw
    exact ⟨unpin_indirect e s fuel st k rec expl hkr hkd hki hw,
      indirectWalk_found e s fuel k st.recursePin expl hw⟩

/-- C5 witness: the not-pinned equivalence on a fresh pinner, both
recursive-unpin behaviors, the unconditional direct removal, and the
indirect-pin rejection naming the concrete root. -/
theorem C5_witness :
    ((unpin exEnv (DServ.mk []) 3 newPinner (Key.uid 0) true).2 =
        some PinErr.notPinned ↔
      isPinnedWithType exEnv (DServ.mk []) 3 newPinner (Key.uid 0) "all" =
        ("", false, none)) ∧
    (unpin exEnv (DServ.mk []) 3 exPinnerRec (Key.uid 0) true =
      ({ exPinnerRec with
          recursePin := removeBlock exPinnerRec.recursePin (Key.uid 0) },
        none) ∧
      unpin exEnv (DServ.mk []) 3 exPinnerRec (Key.uid 0) false =
        (exPinnerRec, some (PinErr.pinnedRecursively (Key.uid 0)))) ∧
    unpin exEnv (DServ.mk []) 3 exPinnerAB (Key.uid 1) false =
      ({ exPinnerAB with
          directPin := removeBlock exPinnerAB.directPin (Key.uid 1) }, none) ∧
    (unpin exEnvLink exStoreLink 3 exPinnerRec (Key.uid 5) false =
      (exPinnerRec,
        some (PinErr.pinnedIndirectly (Key.uid 5) "Qmuid0")) ∧
      ∃ rk, rk ∈ exPinnerRec.recursePin ∧ "Qmuid0" = b58String rk) :=
  ⟨(C5_unpin exEnv (DServ.mk []) 3 newPinner (Key.uid 0)).1 true,
   (C5_unpin exEnv (DServ.mk []) 3 exPinnerRec (Key.uid 0)).2.1 (by decide),
   (C5_unpin exEnv (DServ.mk []) 3 exPinnerAB (Key.uid 1)).2.2.1 (by decide)
     (by decide) false,
   (C5_unpin exEnvLink exStoreLink 3 exPinnerRec (Key.uid 5)).2.2.2 "Qmuid0"
     false (by decide) (by decide) (by decide) (by decide)⟩

/--
C6 (confirmed): with mode "all", `isPinnedWithType` checks the recursive
set first, then the direct set, then the internal set, and finally falls
back to the indirect reachability walk over every recursive root, with
explanations "recursive", "direct", "internal" or the base58 string of the
recursive root found by the walk; any mode string outside the five valid
modes yields the descriptive invalid-type error and pinned = false.
-/
theorem C6_classification (e : Env) (s : DServ) (fuel : Nat) (st : Pinner)
    (k : Key) :
    (k ∈ st.recursePin →
      isPinnedWithType e s fuel st k "all" = ("recursive", true, none)) ∧
    (k ∉ st.recursePin → k ∈ st.directPin →
      isPinnedWithType e s fuel st k "all" = ("direct", true, none)) ∧
    (k ∉ st.recursePin → k ∉ st.directPin → k ∈ st.internalPin →
      isPinnedWithType e s fuel st k "all" = ("internal", true, none)) ∧
    (k ∉ st.recursePin → k ∉ st.directPin → k ∉ st.internalPin →
      isPinnedWithType e s fuel st k "all" =
        indirectWalk e s fuel k st.recursePin ∧
      ∀ expl, indirectWalk e s fuel k st.recursePin = (expl, true, none) →
        ∃ rk, rk ∈ st.recursePin ∧ expl = b58String rk) ∧
    (∀ t, t ≠ "all" → t ≠ "direct" → t ≠ "indirect" → t ≠ "recursive" →
      t ≠ "internal" →
      isPinnedWithType e s fuel st k t =
        ("", false, some (PinErr.invalidType t))) :=
  ⟨fun hkr => isPinned_all_rec e s fuel st k hkr,
   fun hkr hkd => isPinned_all_dir e s fuel st k hkr hkd,
   fun hkr hkd hki => isPinned_all_int e s fuel st k hkr hkd hki,
   fun hkr hkd hki => ⟨isPinned_all_walk e s fuel st k hkr hkd hki,
     fun expl hw => indirectWalk_found e s fuel k st.recursePin expl hw⟩,
   fun t h₁ h₂ h₃ h₄ h₅ => isPinned_invalid e s fuel st k t h₁ h₂ h₃ h₄ h₅⟩

/-- C6 witness: the recursive, direct, fallback-to-walk and invalid-mode
branches at concrete inputs. -/
theorem C6_witness :
    isPinnedWithType exEnv (DServ.mk []) 3 exPinnerRec (Key.uid 0) "all" =
      ("recursive", true, none) ∧
    isPinnedWithType exEnv (DServ.mk []) 3 exPinnerAB (Key.uid 1) "all" =
      ("direct", true, none) ∧
    isPinnedWithType exEnvLink exStoreLink 3 exPinnerRec (Key.uid 5) "all" =
      indirectWalk exEnvLink exStoreLink 3 (Key.uid 5)
        exPinnerRec.recursePin ∧
    isPinnedWithType exEnv (DServ.mk []) 3 newPinner (Key.uid 0) "bogus" =
      ("", false, some (PinErr.invalidType "bogus")) :=
  ⟨(C6_classification exEnv (DServ.mk []) 3 exPinnerRec (Key.uid 0)).1
      (by decide),
   (C6_classification exEnv (DServ.mk []) 3 exPinnerAB (Key.uid 1)).2.1
      (by decide) (by decide),
   ((C6_classification exEnvLink exStoreLink 3 exPinnerRec
      (Key.uid 5)).2.2.2.1 (by decide) (by decide) (by decide)).1,
   (C6_classification exEnv (DServ.mk []) 3 newPinner (Key.uid 0)).2.2.2.2
      "bogus" (by decide) (by decide) (by decide) (by decide) (by decide)⟩

/--
C7 (confirmed): after every successful Flush the durable pointer holds the
new root key and `InternalPins` contains it; after every successful
LoadPinner the pointer that was read is in `InternalPins` of the loaded
pinner.
-/
theorem C7_internal_root :
    (∀ (hsh : Nat → Key → Nat) (e : Env) (s : DServ) (st : Pinner),
      ∃ rk, (flush hsh e s st).dstore = some rk ∧
        rk ∈ internalPins (flush hsh e s st).pinner) ∧
    (∀ (fuel : Nat) (s : DServ) (dst : Option Key) (q : Pinner),
      loadPinner fuel s dst = .ok q →
      ∃ rk, dst = some rk ∧ rk ∈ internalPins q) := by
  constructor
  · intro hsh e s st
    refine ⟨Key.root (storeSet hsh st.directPin).1
      (storeSet hsh st.recursePin).1, flush_dstore hsh e s st, ?_⟩
    rw [show internalPins (flush hsh e s st).pinner =
      (flush hsh e s st).pinner.internalPin from rfl, flush_internal]
    exact List.mem_append.mpr (Or.inr (by simp))
  · intro fuel s dst q hq
    unfold loadPinner at hq
    cases dst with
    | none => cases hq
    | some rootKey =>
      dsimp only at hq
      refine ⟨rootKey, rfl, ?_⟩
      cases hg : s.get rootKey with
      | none => rw [hg] at hq; cases hq
      | some root =>
        rw [hg] at hq
        dsimp only at hq
        cases hR : loadSetE fuel s root "recursive" with
        | error m => rw [hR] at hq; dsimp only at hq; cases hq
        | ok rres =>
          rw [hR] at hq
          dsimp only at hq
          cases hD : loadSetE fuel s root "direct" with
          | error m => rw [hD] at hq; dsimp only at hq; cases hq
          | ok dres =>
            rw [hD] at hq
            dsimp only at hq
            cases hq
            exact List.mem_cons_self _ _

/-- C7 witness: the flushed root pointer is internal, and the pointer read
by a concrete successful load is internal in the loaded pinner. -/
theorem C7_witness :
    (∃ rk, (flush exHash exEnv (DServ.mk []) newPinner).dstore = some rk ∧
      rk ∈ internalPins (flush exHash exEnv (DServ.mk []) newPinner).pinner) ∧
    (∃ rk, exFlushed.dstore = some rk ∧ rk ∈ internalPins exLoaded) :=
  ⟨C7_internal_root.1 exHash exEnv (DServ.mk []) newPinner,
   C7_internal_root.2 2 exFlushed.dserv exFlushed.dstore exLoaded
     (by decide)⟩

/--
C8 (amended): after a successful Flush on a pinner with a previously
flushed or loaded root, the previous root node and every one of its link
children are absent from the store — removal is unconditional and in
particular also hits nodes shared with the new encoding (see
`C8_counterexample`); the claim's guarantee that shared nodes are never
removed does not hold.
-/
theorem C8_cleanup (hsh : Nat → Key → Nat) (e : Env) (s : DServ)
    (st : Pinner) (old : Key) (hrn : st.rootNode = some old) :
    old ∉ (flush hsh e s st).dserv.present ∧
      ∀ c ∈ linksOf e old, c ∉ (flush hsh e s st).dserv.present :=
  flush_removes_old hsh e s st old hrn

/-- C8 witness: the previous root and one of its link children are gone
from the store after the second flush of a fresh pinner. -/
theorem C8_witness :
    Key.root (Key.leaf []) (Key.leaf []) ∉
      (flush exHash exEnv exFlushed.dserv exFlushed.pinner).dserv.present ∧
    Key.leaf [] ∉
      (flush exHash exEnv exFlushed.dserv exFlushed.pinner).dserv.present :=
  ⟨(C8_cleanup exHash exEnv exFlushed.dserv exFlushed.pinner
      (Key.root (Key.leaf []) (Key.leaf [])) (by decide)).1,
   (C8_cleanup exHash exEnv exFlushed.dserv exFlushed.pinner
      (Key.root (Key.leaf []) (Key.leaf [])) (by decide)).2
      (Key.leaf []) (by decide)⟩

/-- C8 counterexample: the node `Key.leaf []` belongs to the new encoding
written by the flush (it is among the nodes the codec reports as created
for the current direct set) and is shared with the previous root's
encoding, yet after Flush it is absent from the store — removal was not
restricted to nodes exclusively owned by the previous record. -/
theorem C8_counterexample :
    Key.leaf [] ∈ (storeSet exHash (directKeys exFlushed.pinner)).2 ∧
    Key.leaf [] ∈ linksOf exEnv (Key.root (Key.leaf []) (Key.leaf [])) ∧
    exFlushed.pinner.rootNode = some (Key.root (Key.leaf []) (Key.leaf [])) ∧
    Key.leaf [] ∉
      (flush exHash exEnv exFlushed.dserv exFlushed.pinner).dserv.present := by
  decide

/--
C9 (amended): `RemovePinWithMode` panics on every mode outside
{Recursive, Direct}, but `PinWithMode` does not: its switch has no default
case, so an unrecognized mode returns normally with the state unchanged.
The claim that both abort fatally is refuted by `C9_counterexample`.
-/
theorem C9_unrecognized_mode (st : Pinner) (k : Key) (mode : PinMode)
    (h₁ : mode ≠ PinMode.recursiveMode) (h₂ : mode ≠ PinMode.directMode) :
    removePinWithMode st k mode = .panics ∧
      pinWithMode st k mode = .returns st := by
  unfold removePinWithMode pinWithMode
  rw [if_neg h₂, if_neg h₁, if_neg h₁, if_neg h₂]
  exact ⟨rfl, rfl⟩

/-- C9 witness: mode 5 (outside the named constants) panics in
`RemovePinWithMode` and returns unchanged from `PinWithMode`. -/
theorem C9_witness :
    removePinWithMode newPinner (Key.uid 0) 5 = .panics ∧
      pinWithMode newPinner (Key.uid 0) 5 = .returns newPinner :=
  C9_unrecognized_mode newPinner (Key.uid 0) 5 (by decide) (by decide)

/-- C9 counterexample: `PinWithMode` with the `NotPinned` mode returns
normally (state unchanged) instead of aborting fatally. -/
theorem C9_counterexample :
    pinWithMode newPinner (Key.uid 0) PinMode.notPinnedMode =
      .returns newPinner ∧
    MResult.returns newPinner ≠ MResult.panics := by
  decide

/--
C10 (confirmed): for a directly (and not recursively) pinned target, a
recursive Pin whose graph fetch fails returns the fetch error with the
direct entry already removed and nothing added to the recursive set, so the
target ends up in neither set — the direct entry is not restored on error.
-/
theorem C10_direct_dropped (e : Env) (s : DServ) (st : Pinner) (k : Key)
    (m : PinErr) (hkd : k ∈ st.directPin) (hkr : k ∉ st.recursePin)
    (hm : e.fetchRes k = some m) :
    pin e s st k true =
      ({ st with directPin := removeBlock st.directPin k }, some m) ∧
    k ∉ (pin e s st k true).1.directPin ∧
    k ∉ (pin e s st k true).1.recursePin := by
  have heq := pin_rec_fail_mem e s st k m hkr hkd hm
  refine ⟨heq, ?_, ?_⟩
  · rw [heq]
    exact fun hc => (mem_removeBlock.mp hc).2 rfl
  · rw [heq]
    exact hkr

/-- C10 witness: a directly pinned identifier is dropped entirely by a
failed recursive pin. -/
theorem C10_witness :
    pin exEnvFail (DServ.mk []) exPinnerDir (Key.uid 1) true =
      ({ exPinnerDir with
          directPin := removeBlock exPinnerDir.directPin (Key.uid 1) },
        some (PinErr.fetchFailed "offline")) ∧
    Key.uid 1 ∉
      (pin exEnvFail (DServ.mk []) exPinnerDir (Key.uid 1) true).1.directPin ∧
    Key.uid 1 ∉
      (pin exEnvFail (DServ.mk []) exPinnerDir (Key.uid 1) true).1.recursePin :=
  C10_direct_dropped exEnvFail (DServ.mk []) exPinnerDir (Key.uid 1)
    (PinErr.fetchFailed "offline") (by decide) (by decide) (by decide)
